import Mathlib

/-!
Shallow embedding of the cart / promo / pricing core of `src/app.py`
(restaurant web shop).  Money amounts are modelled as rationals (Python
floats used exactly on the decimal values the program manipulates),
quantities and counters as integers, and the session / promo-store /
site-config state is passed explicitly.  JSON coercion noise of the
source (`str(...)`, `int(...)`, `float(...)` with try/except) is folded
into typed fields wherever no claim depends on it; fields a claim
touches (negative numbers, mixed-case codes, unparseable dates) keep
their raw shape in `RawPromo`.
-/

namespace Pubsite

/-- Python `str.upper()` over the character list (the program only
upper-cases promo codes). -/
def pyUpper (s : String) : String := ⟨s.data.map Char.toUpper⟩

/-- Python `str.lower()` over the character list. -/
def pyLower (s : String) : String := ⟨s.data.map Char.toLower⟩

/-- Python `str.strip()`: drop leading and trailing whitespace. -/
def pyStrip (s : String) : String :=
  ⟨((s.data.dropWhile fun c => c.isWhitespace).reverse.dropWhile
      fun c => c.isWhitespace).reverse⟩

/-- Promo type after normalization: `"percent"` or `"fixed"` in the source. -/
inductive PType where
  | percent
  | fixed
deriving DecidableEq, Repr

/-- A normalized promo record, as produced by `_normalize_promo` /
stored in the promo store.  `expires_at = some none` models a present
but unparseable date string (never produced by normalization, but
`_promo_status` must handle it); `some (some d)` is a date parsed to an
abstract day number. -/
structure Promo where
  code : String
  type : PType
  value : ℚ
  min_subtotal : ℚ
  expires_at : Option (Option Int)
  max_uses : Int
  used : Int
  active : Bool
  comment : String
deriving DecidableEq, Repr

/-- A raw promo record as read from JSON, before `_normalize_promo`:
numbers may be negative, the code may be mixed case / padded, the type
string arbitrary. -/
structure RawPromo where
  code : String
  type : String
  value : ℚ
  min_subtotal : ℚ
  expires_at : Option (Option Int)
  max_uses : Int
  used : Int
  active : Bool
  comment : String
deriving DecidableEq, Repr

/-- `_normalize_promo` from `src/app.py`: upper-cases and trims the
code (dropping the record when it is empty), maps the type string
(`"fixed"`/`"amount"` → fixed, anything else → percent), takes the
absolute value of `value`, clamps `min_subtotal`, `max_uses`, `used`
at 0, and drops an unparseable expiry date. -/
def _normalize_promo (item : RawPromo) : Option Promo :=
  let code := pyUpper (pyStrip item.code)
  if code = "" then none
  else
    let raw_type := pyLower item.type
    let promo_type := if raw_type = "fixed" ∨ raw_type = "amount" then PType.fixed else PType.percent
    let expires : Option (Option Int) :=
      match item.expires_at with
      | some none => none
      | e => e
    some { code := code, type := promo_type, value := |item.value|,
           min_subtotal := max 0 item.min_subtotal,
           expires_at := expires,
           max_uses := max 0 item.max_uses,
           used := max 0 item.used,
           active := item.active,
           comment := item.comment }

/-- One step of the `seen` dict built by `load_promocodes`: a later
record with an already-present code overwrites the stored one
(Python dict assignment), otherwise it is appended. -/
def upsertPromo (acc : List Promo) (p : Promo) : List Promo :=
  if acc.any (fun q => q.code = p.code) then
    acc.map (fun q => if q.code = p.code then p else q)
  else acc ++ [p]

/-- Insertion step of sorting the promo store by code (Python
`sorted(..., key=code)`; the dict keys are unique so stability is
moot). -/
def insertByCode (p : Promo) : List Promo → List Promo
  | [] => [p]
  | q :: rest => if q.code ≤ p.code then q :: insertByCode p rest else p :: q :: rest

/-- Sort a promo list by code (insertion sort). -/
def sortByCode : List Promo → List Promo
  | [] => []
  | p :: rest => insertByCode p (sortByCode rest)

/-- `load_promocodes` from `src/app.py`: normalize each row, collapse
duplicate codes through a dict (last occurrence wins), return the
values sorted by code. -/
def load_promocodes (data : List RawPromo) : List Promo :=
  sortByCode ((data.filterMap _normalize_promo).foldl upsertPromo [])

/-- The loop of `save_promocodes`: skip records that fail
normalization or whose code was already seen (first occurrence wins). -/
def saveGo (seen : List String) : List RawPromo → List Promo
  | [] => []
  | it :: rest =>
    match _normalize_promo it with
    | none => saveGo seen rest
    | some norm =>
      if norm.code ∈ seen then saveGo seen rest
      else norm :: saveGo (norm.code :: seen) rest

/-- `save_promocodes` from `src/app.py` (the cleaning pass before the
atomic file write, which is external I/O). -/
def save_promocodes (items : List RawPromo) : List Promo :=
  saveGo [] items

/-- Re-injection of a normalized promo into the raw shape, as it is
handed back to `save_promocodes` by `_increment_promo_usage`. -/
def Promo.toRaw (p : Promo) : RawPromo :=
  { code := p.code,
    type := match p.type with | .percent => "percent" | .fixed => "fixed",
    value := p.value, min_subtotal := p.min_subtotal,
    expires_at := p.expires_at, max_uses := p.max_uses, used := p.used,
    active := p.active, comment := p.comment }

/-- `set_promo_code` from `src/app.py`, acting on the session's promo
slot: a falsy code (`None` or `""`) pops the key, otherwise the
stripped, upper-cased code is stored. -/
def set_promo_code (code : Option String) : Option String :=
  match code with
  | none => none
  | some c => if c = "" then none else some (pyUpper (pyStrip c))

/-- The expiry test of `_promo_status`: a present, parseable date with
`today` strictly after it.  An absent date or a parse failure (the
source swallows the exception) is not expired. -/
def expiryPassed (today : Int) (expires_at : Option (Option Int)) : Bool :=
  match expires_at with
  | some (some exp) => today > exp
  | _ => false

/-- `_promo_status` from `src/app.py` (status string only; the
human-readable message is presentation).  `today` abstracts
`datetime.now().date()`. -/
def _promo_status (today : Int) (promo : Promo) (subtotal : ℚ) : String :=
  if promo.active = false then "inactive"
  else if expiryPassed today promo.expires_at then "expired"
  else if promo.max_uses > 0 ∧ promo.used ≥ promo.max_uses then "limit"
  else if subtotal < promo.min_subtotal then "pending"
  else "ok"

/-- `_calc_promo_discount` from `src/app.py`. -/
def _calc_promo_discount (subtotal : ℚ) (promo : Promo) : ℚ :=
  if subtotal ≤ 0 ∨ promo.value ≤ 0 then 0
  else
    let disc := if promo.type = PType.fixed then promo.value
                else subtotal * (promo.value / 100)
    min subtotal (max 0 disc)

/-- The derived applied-promo state (`AppliedPromoState` of the spec). -/
structure PromoState where
  code : String
  promo : Option Promo
  discount : ℚ
  status : String
deriving DecidableEq, Repr

/-- `get_applied_promo` from `src/app.py`.  Takes the loaded promo
store and the session's stored code, returns the recomputed state and
the new session promo slot (the source mutates the session in place). -/
def get_applied_promo (today : Int) (store : List Promo)
    (sess : Option String) (subtotal : ℚ) : PromoState × Option String :=
  let code := pyUpper (pyStrip (sess.getD ""))
  if code = "" then
    ({ code := code, promo := none, discount := 0, status := "none" }, sess)
  else
    match store.find? (fun p => p.code = code) with
    | none =>
      ({ code := code, promo := none, discount := 0, status := "invalid" },
       set_promo_code none)
    | some promo =>
      let status := _promo_status today promo subtotal
      let discount := if status = "ok" then _calc_promo_discount subtotal promo else 0
      let sess' := if status = "inactive" ∨ status = "expired" ∨ status = "limit"
                   then set_promo_code none else sess
      ({ code := code, promo := some promo, discount := discount, status := status },
       sess')

/-- The loop of `_increment_promo_usage`: bump the first promo whose
code matches, report whether anything changed. -/
def bumpFirst (code : String) : List Promo → List Promo × Bool
  | [] => ([], false)
  | p :: rest =>
    if p.code = code then ({ p with used := max 0 p.used + 1 } :: rest, true)
    else
      let r := bumpFirst code rest
      (p :: r.1, r.2)

/-- `_increment_promo_usage` from `src/app.py`, acting on the
persisted store: load, bump the first matching record, save (which
re-normalizes) only when something changed. -/
def _increment_promo_usage (code : String) (promos : List Promo) : List Promo :=
  if code = "" then promos
  else
    let r := bumpFirst code promos
    if r.2 then save_promocodes (r.1.map Promo.toRaw) else promos

/-- A cart line as stored in the session (`CartLine` of the spec). -/
structure CartLine where
  category : String
  subname : String
  name : String
  variant : String
  unit_price : ℚ
  qty : Int
deriving DecidableEq, Repr

/-- The session state the cart routes read and write: the cart list
and the stored promo code slot. -/
structure Session where
  cart : List CartLine
  promo_code : Option String
deriving DecidableEq, Repr

/-- The identity / merge key of a cart line. -/
def skuKey (r : CartLine) : String × String × String × String :=
  (r.category, r.subname, r.name, r.variant)

/-- `calc_subtotal` from `src/app.py`. -/
def calc_subtotal (c : List CartLine) : ℚ :=
  (c.map (fun r => r.unit_price * (r.qty : ℚ))).sum

/-- `calc_cart_count` from `src/app.py`. -/
def calc_cart_count (c : List CartLine) : Int :=
  (c.map (fun r => r.qty)).sum

/-- The site cart settings (`SiteCartConfig` of the spec), read from
`site.json` (`cart.delivery_price`, `cart.free_from`,
`cart.pickup_discount`). -/
structure CartCfg where
  delivery_price : ℚ
  free_from : ℚ
  pickup_discount : ℚ
deriving DecidableEq, Repr

/-- `compute_shipping` from `src/app.py` (the non-exceptional path;
the except branch only hard-codes the same defaults 200/1500). -/
def compute_shipping (subtotal : ℚ) (cfg : CartCfg) : ℚ :=
  if subtotal > 0 ∧ subtotal ≥ cfg.free_from then 0 else cfg.delivery_price

/-- The merge loop of `cart_add`: the first line whose identity key
matches gets its qty incremented and the loop stops; otherwise a new
line is appended at the end. -/
def addLine (sku : String × String × String × String) (unit_price : ℚ)
    (qty : Int) : List CartLine → List CartLine
  | [] => [{ category := sku.1, subname := sku.2.1, name := sku.2.2.1,
             variant := sku.2.2.2, unit_price := unit_price, qty := qty }]
  | r :: rest =>
    if skuKey r = sku then { r with qty := r.qty + qty } :: rest
    else r :: addLine sku unit_price qty rest

/-- The cart mutation of `cart_add` (`POST /cart/add`), after menu
resolution has produced the item name, variant label and unit price
(resolution failures return before the cart is touched).  `qtyReq`
models the form's `qty` field: `none` for a missing or non-numeric
value, which the source turns into 1; the value is clamped to ≥ 1.
The source's final `if not cart: set_promo_code(None)` is kept even
though the freshly extended cart is never empty. -/
def cart_add (sess : Session) (category : String) (subname : Option String)
    (name variant : String) (unit_price : ℚ) (qtyReq : Option Int) : Session :=
  let qty := max 1 (qtyReq.getD 1)
  let sku := (category, subname.getD "", name, variant)
  let cart' := addLine sku unit_price qty sess.cart
  { cart := cart',
    promo_code := if cart' = [] then none else sess.promo_code }

/-- `cart_remove` (`POST /cart/remove`): remove one line by position;
out-of-range is a flash-only no-op; when the pop empties the cart the
stored promo code is cleared. -/
def cart_remove (sess : Session) (idx : Int) : Session :=
  if 0 ≤ idx ∧ idx < (sess.cart.length : Int) then
    let cart' := sess.cart.eraseIdx idx.toNat
    { cart := cart',
      promo_code := if cart' = [] then none else sess.promo_code }
  else sess

/-- The qty action carried by `POST /cart/update`: `inc`/`dec` adjust
by ±1, `setq q` sets an absolute quantity (`none` models a missing or
non-numeric form value, which the source's except turns into 1). -/
inductive UpdAction where
  | inc
  | dec
  | setq (q : Option Int)
deriving DecidableEq, Repr

/-- `cart_update` (`POST /cart/update`): out-of-range index is a
no-op; the new quantity is clamped at 0; quantity 0 pops the line,
otherwise the line's qty is overwritten.  Note: unlike `cart_remove`,
the source does not clear the stored promo code when the pop leaves
the cart empty. -/
def cart_update (sess : Session) (idx : Int) (action : UpdAction) : Session :=
  if 0 ≤ idx ∧ idx < (sess.cart.length : Int) then
    match sess.cart[idx.toNat]? with
    | none => sess
    | some line =>
      let new_q := max 0 (match action with
        | .inc => line.qty + 1
        | .dec => line.qty - 1
        | .setq q => q.getD 1)
      { sess with
        cart := if new_q = 0 then sess.cart.eraseIdx idx.toNat
                else sess.cart.set idx.toNat { line with qty := new_q } }
  else sess

/-- `cart_clear` (`POST /cart/clear`). -/
def cart_clear (_sess : Session) : Session :=
  { cart := [], promo_code := none }

/-- Python's `x or default` over an optional form string: absent or
empty falls back to the default. -/
def strOr (s : Option String) (d : String) : String :=
  match s with
  | none => d
  | some v => if v = "" then d else v

/-- The checkout form fields `order_submit` reads.  `change_from`
models the raw text field: `none` for absent/blank, `some none` for a
non-numeric value (the source substitutes `-1.0`), `some (some v)` for
a value parsing to `v`. -/
structure OrderForm where
  name : String
  phone : String
  address : String
  comment : String
  delivery_method : Option String
  payment_method : Option String
  change_from : Option (Option ℚ)
deriving DecidableEq, Repr

/-- The rejection cases of `order_submit` (each is a flash + redirect
in the source). -/
inductive OrderErr where
  | cartEmpty
  | badDeliveryMethod
  | missingNamePhone
  | missingAddress
  | missingChange
  | insufficientChange
deriving DecidableEq, Repr

/-- The pricing fields of the order row written by `order_submit`
(timestamps / ip / user-agent / serialized JSON blobs are request
metadata outside the embedding). -/
structure OrderResult where
  subtotal : ℚ
  discount : ℚ
  discounted_subtotal : ℚ
  delivery : ℚ
  total : ℚ
  promo_code : String
  promo_status : String
  payment_method : String
  change_from : Option ℚ
  delivery_method : String
  pickup_discount_pct : ℚ
  pickup_discount_value : ℚ
deriving DecidableEq, Repr

instance {e a : Type} [DecidableEq e] [DecidableEq a] : DecidableEq (Except e a) :=
  fun x y =>
  match x, y with
  | .error u, .error v =>
    if h : u = v then .isTrue (by rw [h]) else .isFalse (by simp [h])
  | .ok u, .ok v =>
    if h : u = v then .isTrue (by rw [h]) else .isFalse (by simp [h])
  | .error _, .ok _ => .isFalse (by simp)
  | .ok _, .error _ => .isFalse (by simp)

/-- `order_submit` (`POST /order`) from `src/app.py`: validation
gates, pricing, the order row, the conditional promo usage increment,
and the cart / promo reset.  Returns the order row, the new persisted
promo store, and the new session. -/
def order_submit (today : Int) (store : List Promo) (cfg : CartCfg)
    (sess : Session) (form : OrderForm) :
    Except OrderErr (OrderResult × List Promo × Session) :=
  if sess.cart = [] then .error .cartEmpty
  else
    let name := pyStrip form.name
    let phone := pyStrip form.phone
    let dm := pyLower (pyStrip (strOr form.delivery_method "delivery"))
    if ¬ (dm = "delivery" ∨ dm = "pickup") then .error .badDeliveryMethod
    else if name = "" ∨ phone = "" then .error .missingNamePhone
    else if dm = "delivery" ∧ pyStrip form.address = "" then .error .missingAddress
    else
      let pm0 := pyLower (pyStrip (strOr form.payment_method "card"))
      let pm := if pm0 = "card" ∨ pm0 = "cash" then pm0 else "card"
      let subtotal := calc_subtotal sess.cart
      let ps := get_applied_promo today store sess.promo_code subtotal
      let discount := ps.1.discount
      let subtotal_after := max 0 (subtotal - discount)
      let pickup_pct := cfg.pickup_discount
      let delivery := if dm = "delivery" then compute_shipping subtotal_after cfg else 0
      let pickup_discount := if dm = "delivery" then 0
                             else max 0 (subtotal_after * (pickup_pct / 100))
      let total := if dm = "delivery" then subtotal_after + delivery
                   else max 0 (subtotal_after - pickup_discount) + delivery
      let promo_code := match ps.1.promo with
        | some p => p.code
        | none => ""
      let promo_status := if ps.1.promo.isSome then ps.1.status else ""
      let finish : Option ℚ → OrderResult × List Promo × Session :=
        fun change_val =>
          ({ subtotal := subtotal, discount := discount,
             discounted_subtotal := subtotal_after, delivery := delivery,
             total := total, promo_code := promo_code,
             promo_status := promo_status, payment_method := pm,
             change_from := change_val, delivery_method := dm,
             pickup_discount_pct := pickup_pct,
             pickup_discount_value := pickup_discount },
           if promo_code ≠ "" ∧ discount > 0
           then _increment_promo_usage promo_code store else store,
           { cart := [], promo_code := none })
      if pm = "cash" then
        match form.change_from with
        | none => .error .missingChange
        | some parsed =>
          let v := parsed.getD (-1)
          if v < total then .error .insufficientChange
          else .ok (finish (some v))
      else .ok (finish none)

/-- One public cart operation, as dispatched by the cart routes. -/
inductive CartOp where
  | add (category : String) (subname : Option String) (name variant : String)
        (unit_price : ℚ) (qtyReq : Option Int)
  | update (idx : Int) (action : UpdAction)
  | remove (idx : Int)
  | clear
deriving Repr

/-- Dispatch one cart operation on the session. -/
def applyOp (sess : Session) : CartOp → Session
  | .add category subname name variant unit_price qtyReq =>
    cart_add sess category subname name variant unit_price qtyReq
  | .update idx action => cart_update sess idx action
  | .remove idx => cart_remove sess idx
  | .clear => cart_clear sess

/-- Run a sequence of cart operations from a session. -/
def runOps (sess : Session) (ops : List CartOp) : Session :=
  ops.foldl applyOp sess

/-- The fresh session of a new visitor: empty cart, no promo code. -/
def emptySession : Session := { cart := [], promo_code := none }

/-- Well-formedness of a persisted promo record: exactly the shape
`_normalize_promo` guarantees (trimmed upper-case non-empty code,
non-negative numerics, no unparseable expiry). -/
def PromoWF (p : Promo) : Prop :=
  pyUpper (pyStrip p.code) = p.code ∧ p.code ≠ "" ∧ 0 ≤ p.value ∧
  0 ≤ p.min_subtotal ∧ 0 ≤ p.max_uses ∧ 0 ≤ p.used ∧ p.expires_at ≠ some none

instance (p : Promo) : Decidable (PromoWF p) := by
  unfold PromoWF; infer_instance

/-- Spec-side helper: the last raw record normalizing to code `c`. -/
def lastNormWithCode (raws : List RawPromo) (c : String) : Option Promo :=
  ((raws.filterMap _normalize_promo).filter (fun p => p.code = c)).getLast?

/-- Spec-side helper: the first raw record normalizing to code `c`. -/
def firstNormWithCode (raws : List RawPromo) (c : String) : Option Promo :=
  ((raws.filterMap _normalize_promo).filter (fun p => p.code = c)).head?

/-- The `used` counter of the promo with the given code, if present. -/
def findUsed (store : List Promo) (c : String) : Option Int :=
  (store.find? (fun p => p.code = c)).map (fun p => p.used)

/-! Concrete records used by witnesses. -/

def exLine : CartLine :=
  { category := "Pizza", subname := "", name := "Margherita", variant := "",
    unit_price := 1000, qty := 1 }

def exCfg : CartCfg := { delivery_price := 200, free_from := 1500, pickup_discount := 0 }

def exPromo : Promo :=
  { code := "SAVE10", type := .percent, value := 10, min_subtotal := 500,
    expires_at := none, max_uses := 0, used := 0, active := true, comment := "" }

def exForm : OrderForm :=
  { name := "Ann", phone := "123", address := "Main st", comment := "",
    delivery_method := some "delivery", payment_method := some "card",
    change_from := none }

/-- Every status `_promo_status` can return. -/
theorem promo_status_cases (today : Int) (p : Promo) (subtotal : ℚ) :
    _promo_status today p subtotal = "inactive" ∨
    _promo_status today p subtotal = "expired" ∨
    _promo_status today p subtotal = "limit" ∨
    _promo_status today p subtotal = "pending" ∨
    _promo_status today p subtotal = "ok" := by
  unfold _promo_status
  (repeat' split) <;> simp

/-- C2: for every subtotal ≥ 0 and every promo record the discount lies
in `[0, subtotal]`; with positive value and subtotal it is the
percent/fixed formula floored at 0 and capped at subtotal; a zero value
or zero subtotal yields exactly 0. -/
theorem promo_discount_within_bounds (subtotal : ℚ) (p : Promo) (h : 0 ≤ subtotal) :
    0 ≤ _calc_promo_discount subtotal p ∧
    _calc_promo_discount subtotal p ≤ subtotal ∧
    (0 < subtotal → 0 < p.value →
      _calc_promo_discount subtotal p =
        min subtotal (max 0 (if p.type = PType.fixed then p.value
                             else subtotal * (p.value / 100)))) ∧
    ((p.value = 0 ∨ subtotal = 0) → _calc_promo_discount subtotal p = 0) := by
  unfold _calc_promo_discount
  split
  case isTrue hc =>
    refine ⟨le_refl 0, h, ?_, fun _ => rfl⟩
    intro hs hv
    rcases hc with hc | hc
    · exact absurd hs (not_lt.mpr hc)
    · exact absurd hv (not_lt.mpr hc)
  case isFalse hc =>
    push_neg at hc
    refine ⟨le_min hc.1.le (le_max_left 0 _), min_le_left _ _, fun _ _ => rfl, ?_⟩
    rintro (hz | hz)
    · exact absurd hz (ne_of_gt hc.2)
    · exact absurd hz (ne_of_gt hc.1)

theorem promo_discount_within_bounds_witness :
    (0 : ℚ) ≤ 1000 ∧
    (0 ≤ _calc_promo_discount 1000 exPromo ∧
     _calc_promo_discount 1000 exPromo ≤ 1000 ∧
     (0 < (1000 : ℚ) → 0 < exPromo.value →
       _calc_promo_discount 1000 exPromo =
         min 1000 (max 0 (if exPromo.type = PType.fixed then exPromo.value
                          else 1000 * (exPromo.value / 100)))) ∧
     ((exPromo.value = 0 ∨ (1000 : ℚ) = 0) → _calc_promo_discount 1000 exPromo = 0)) :=
  ⟨by norm_num, promo_discount_within_bounds 1000 exPromo (by norm_num)⟩

/-- C3: the promo validation status is decided by the first matching
rule, in the order inactive → expired → limit → pending → ok; in
particular an inactive promo past its expiry date reports `inactive`. -/
theorem promo_status_precedence (today : Int) (p : Promo) (subtotal : ℚ) :
    (p.active = false → _promo_status today p subtotal = "inactive") ∧
    (p.active = true → ∀ d : Int, p.expires_at = some (some d) → today > d →
      _promo_status today p subtotal = "expired") ∧
    (p.active = true → expiryPassed today p.expires_at = false →
      p.max_uses > 0 → p.used ≥ p.max_uses →
      _promo_status today p subtotal = "limit") ∧
    (p.active = true → expiryPassed today p.expires_at = false →
      ¬(p.max_uses > 0 ∧ p.used ≥ p.max_uses) → subtotal < p.min_subtotal →
      _promo_status today p subtotal = "pending") ∧
    (p.active = true → expiryPassed today p.expires_at = false →
      ¬(p.max_uses > 0 ∧ p.used ≥ p.max_uses) → ¬(subtotal < p.min_subtotal) →
      _promo_status today p subtotal = "ok") := by
  refine ⟨?_, ?_, ?_, ?_, ?_⟩
  · intro ha; simp [_promo_status, ha]
  · intro ha d hd hlt
    simp [_promo_status, ha, expiryPassed, hd, hlt]
  · intro ha hexp hmu hu
    simp [_promo_status, ha, hexp, hmu, hu]
  · intro ha hexp hlim hmin
    simp [_promo_status, ha, hexp, hlim, hmin]
  · intro ha hexp hlim hmin
    simp [_promo_status, ha, hexp, hlim, hmin]

theorem promo_status_precedence_witness :
    ({ exPromo with active := false,
                    expires_at := some (some 10) } : Promo).active = false ∧
    _promo_status 20 { exPromo with active := false, expires_at := some (some 10) } 1000 =
      "inactive" :=
  ⟨rfl, (promo_status_precedence 20
    { exPromo with active := false, expires_at := some (some 10) } 1000).1 rfl⟩

/-- C4: with a non-empty stored code, recomputing the applied promo
clears the session slot exactly for statuses invalid / inactive /
expired / limit, and leaves the stored code in place for pending / ok. -/
theorem applied_promo_clears_dead_codes (today : Int) (store : List Promo)
    (sess : Option String) (subtotal : ℚ)
    (hcode : pyUpper (pyStrip (sess.getD "")) ≠ "") :
    ((get_applied_promo today store sess subtotal).2 = none ↔
      (get_applied_promo today store sess subtotal).1.status ∈
        (["invalid", "inactive", "expired", "limit"] : List String)) ∧
    ((get_applied_promo today store sess subtotal).2 = sess ↔
      (get_applied_promo today store sess subtotal).1.status ∈
        (["pending", "ok"] : List String)) := by
  have hsome : ∃ s, sess = some s := by
    cases sess with
    | none => exact absurd (by decide) hcode
    | some s => exact ⟨s, rfl⟩
  obtain ⟨s, rfl⟩ := hsome
  simp only [get_applied_promo]
  split
  · exact absurd ‹_› hcode
  · split
    · simp [set_promo_code]
    · rename_i promo hfind
      rcases promo_status_cases today promo subtotal with h | h | h | h | h <;>
        simp [h, set_promo_code]

theorem applied_promo_clears_dead_codes_witness :
    (pyUpper (pyStrip ((some "SAVE10" : Option String).getD "")) ≠ "") ∧
    (((get_applied_promo 0 [exPromo] (some "SAVE10") 1000).2 = none ↔
       (get_applied_promo 0 [exPromo] (some "SAVE10") 1000).1.status ∈
         (["invalid", "inactive", "expired", "limit"] : List String)) ∧
     ((get_applied_promo 0 [exPromo] (some "SAVE10") 1000).2 = some "SAVE10" ↔
       (get_applied_promo 0 [exPromo] (some "SAVE10") 1000).1.status ∈
         (["pending", "ok"] : List String))) :=
  ⟨by decide, applied_promo_clears_dead_codes 0 [exPromo] (some "SAVE10") 1000 (by decide)⟩

/-- C6 (code bug in `cart_update`): dropping the last line through a
quantity-0 update leaves the cart empty but retains the stored promo
code, unlike `cart_remove` and `cart_clear`. -/
theorem qty_zero_on_last_line_retains_promo :
    cart_update { cart := [exLine], promo_code := some "SAVE10" } 0 (.setq (some 0)) =
      { cart := [], promo_code := some "SAVE10" } := by
  decide

/-- C7 (code bug, same root cause): updating the quantity of the only
line to 0 is not equivalent to removing it: the cart lines agree, but
`cart_remove` clears the stored promo code while `cart_update` keeps
it. -/
theorem qty_zero_update_differs_from_remove :
    cart_update { cart := [exLine], promo_code := some "SAVE10" } 0 (.setq (some 0)) ≠
      cart_remove { cart := [exLine], promo_code := some "SAVE10" } 0 ∧
    (cart_update { cart := [exLine], promo_code := some "SAVE10" } 0 (.setq (some 0))).cart =
      (cart_remove { cart := [exLine], promo_code := some "SAVE10" } 0).cart ∧
    (cart_update { cart := [exLine], promo_code := some "SAVE10" } 0
        (.setq (some 0))).promo_code = some "SAVE10" ∧
    (cart_remove { cart := [exLine], promo_code := some "SAVE10" } 0).promo_code = none := by
  decide

/-- The identity keys after `addLine`: an existing key keeps the key
list unchanged, a new key is appended at the end. -/
theorem addLine_map_skuKey (sku : String × String × String × String)
    (unit_price : ℚ) (qty : Int) (cart : List CartLine) :
    (addLine sku unit_price qty cart).map skuKey =
      (if sku ∈ cart.map skuKey then cart.map skuKey
       else cart.map skuKey ++ [sku]) := by
  induction cart with
  | nil => simp [addLine, skuKey]
  | cons r rest ih =>
    simp only [addLine]
    by_cases hr : skuKey r = sku
    · rw [if_pos hr]
      have hk : skuKey { r with qty := r.qty + qty } = skuKey r := rfl
      simp [hk, hr]
    · rw [if_neg hr]
      simp only [List.map_cons, ih, List.mem_cons]
      by_cases hm : sku ∈ rest.map skuKey
      · simp [hm]
      · simp [hm, Ne.symm hr]

/-- With unique keys, adding a line whose key is already present
rewrites the matching line in place. -/
theorem addLine_of_mem (sku : String × String × String × String)
    (unit_price : ℚ) (qty : Int) (cart : List CartLine)
    (hnd : (cart.map skuKey).Nodup) (r0 : CartLine) (hr0 : r0 ∈ cart)
    (hk : skuKey r0 = sku) :
    addLine sku unit_price qty cart =
      cart.map (fun r => if skuKey r = sku then { r with qty := r.qty + qty }
                         else r) := by
  induction cart with
  | nil => cases hr0
  | cons r rest ih =>
    simp only [List.map_cons, List.nodup_cons] at hnd
    simp only [addLine, List.map_cons]
    by_cases hr : skuKey r = sku
    · rw [if_pos hr, if_pos hr]
      congr 1
      have hid : ∀ x ∈ rest,
          (fun r => if skuKey r = sku then { r with qty := r.qty + qty } else r) x
            = id x := by
        intro x hx
        have hnx : skuKey x ≠ sku := by
          intro hxe
          exact hnd.1 (hr ▸ hxe ▸ List.mem_map_of_mem skuKey hx)
        simp [hnx]
      rw [List.map_congr_left hid, List.map_id]
    · rw [if_neg hr, if_neg hr]
      congr 1
      rcases List.mem_cons.mp hr0 with he | hmem
      · exact absurd (he ▸ hk) hr
      · exact ih hnd.2 hmem

/-- Adding a line with a fresh key appends it at the end. -/
theorem addLine_of_not_mem (sku : String × String × String × String)
    (unit_price : ℚ) (qty : Int) (cart : List CartLine)
    (hnone : ∀ x ∈ cart, skuKey x ≠ sku) :
    addLine sku unit_price qty cart =
      cart ++ [{ category := sku.1, subname := sku.2.1, name := sku.2.2.1,
                 variant := sku.2.2.2, unit_price := unit_price, qty := qty }] := by
  induction cart with
  | nil => simp [addLine]
  | cons r rest ih =>
    simp only [addLine]
    rw [if_neg (hnone r (List.mem_cons_self r rest))]
    simp only [List.cons_append]
    congr 1
    exact ih (fun x hx => hnone x (List.mem_cons_of_mem r hx))

/-- C8: at most one cart line exists per identity key: `cart_add`
preserves key-uniqueness; an add whose key matches an existing line
rewrites that line's qty in place (no new line), and a fresh key
appends exactly one line. -/
theorem cart_add_merges_by_identity_key (sess : Session) (category : String)
    (subname : Option String) (name variant : String) (unit_price : ℚ)
    (qtyReq : Option Int) (hinv : (sess.cart.map skuKey).Nodup) :
    (((cart_add sess category subname name variant unit_price qtyReq).cart.map
        skuKey).Nodup) ∧
    (∀ r0 ∈ sess.cart, skuKey r0 = (category, subname.getD "", name, variant) →
      (cart_add sess category subname name variant unit_price qtyReq).cart =
        sess.cart.map (fun r =>
          if skuKey r = (category, subname.getD "", name, variant)
          then { r with qty := r.qty + max 1 (qtyReq.getD 1) } else r)) ∧
    ((∀ r0 ∈ sess.cart, skuKey r0 ≠ (category, subname.getD "", name, variant)) →
      (cart_add sess category subname name variant unit_price qtyReq).cart =
        sess.cart ++ [{ category := category, subname := subname.getD "",
                        name := name, variant := variant,
                        unit_price := unit_price,
                        qty := max 1 (qtyReq.getD 1) }]) := by
  refine ⟨?_, ?_, ?_⟩
  · simp only [cart_add]
    rw [addLine_map_skuKey]
    split
    · exact hinv
    · rename_i hm
      simp [List.nodup_append, hinv, hm]
  · intro r0 hr0 hk
    simp only [cart_add]
    exact addLine_of_mem _ _ _ _ hinv r0 hr0 hk
  · intro hnone
    simp only [cart_add]
    exact addLine_of_not_mem _ _ _ _ hnone

theorem cart_add_merges_by_identity_key_witness :
    ((([exLine] : List CartLine).map skuKey).Nodup) ∧
    (((cart_add { cart := [exLine], promo_code := none } "Pizza" none "Margherita" ""
        1000 (some 3)).cart.map skuKey).Nodup) ∧
    (cart_add (cart_add emptySession "Pizza" none "Margherita" "" 1000 (some 2))
        "Pizza" none "Margherita" "" 1000 (some 3)).cart =
      [{ category := "Pizza", subname := "", name := "Margherita", variant := "",
         unit_price := 1000, qty := 5 }] :=
  ⟨by decide,
   (cart_add_merges_by_identity_key { cart := [exLine], promo_code := none }
     "Pizza" none "Margherita" "" 1000 (some 3) (by decide)).1,
   by decide⟩

/-- Membership in `addLine`: a result line is an original line, an
original line with its qty bumped, or the freshly appended line. -/
theorem mem_addLine (sku : String × String × String × String)
    (unit_price : ℚ) (qty : Int) (cart : List CartLine) (x : CartLine)
    (hx : x ∈ addLine sku unit_price qty cart) :
    x ∈ cart ∨ (∃ r ∈ cart, x = { r with qty := r.qty + qty }) ∨
      x = { category := sku.1, subname := sku.2.1, name := sku.2.2.1,
            variant := sku.2.2.2, unit_price := unit_price, qty := qty } := by
  induction cart with
  | nil =>
    simp only [addLine, List.mem_singleton] at hx
    exact Or.inr (Or.inr hx)
  | cons r rest ih =>
    simp only [addLine] at hx
    by_cases hr : skuKey r = sku
    · rw [if_pos hr] at hx
      rcases List.mem_cons.mp hx with h | h
      · exact Or.inr (Or.inl ⟨r, List.mem_cons_self r rest, h⟩)
      · exact Or.inl (List.mem_cons_of_mem r h)
    · rw [if_neg hr] at hx
      rcases List.mem_cons.mp hx with h | h
      · exact Or.inl (h ▸ List.mem_cons_self r rest)
      · rcases ih h with h1 | ⟨r1, hr1, he⟩ | h2
        · exact Or.inl (List.mem_cons_of_mem r h1)
        · exact Or.inr (Or.inl ⟨r1, List.mem_cons_of_mem r hr1, he⟩)
        · exact Or.inr (Or.inr h2)

/-- Every cart operation preserves "all line quantities are ≥ 1". -/
theorem applyOp_qty_pos (sess : Session) (op : CartOp)
    (h : ∀ r ∈ sess.cart, 1 ≤ r.qty) :
    ∀ r ∈ (applyOp sess op).cart, 1 ≤ r.qty := by
  cases op with
  | add category subname name variant unit_price qtyReq =>
    intro x hx
    have hq : (1 : Int) ≤ max 1 (qtyReq.getD 1) := le_max_left _ _
    simp only [applyOp, cart_add] at hx
    rcases mem_addLine _ _ _ _ _ hx with h1 | ⟨r, hr, he⟩ | h2
    · exact h x h1
    · subst he
      have := add_le_add (h r hr) hq
      show 1 ≤ r.qty + max 1 (qtyReq.getD 1)
      omega
    · subst h2
      exact hq
  | update idx action =>
    intro x hx
    simp only [applyOp, cart_update] at hx
    split at hx
    · rename_i hrange
      rcases hline : sess.cart[idx.toNat]? with _ | line
      · rw [hline] at hx
        exact h x hx
      · rw [hline] at hx
        dsimp only at hx
        split at hx
        · exact h x (List.eraseIdx_subset _ _ hx)
        · rename_i hne
          rcases List.mem_or_eq_of_mem_set hx with hmem | he
          · exact h x hmem
          · subst he
            dsimp only
            have h0 : (0 : Int) ≤ max 0 (match action with
              | UpdAction.inc => line.qty + 1
              | UpdAction.dec => line.qty - 1
              | UpdAction.setq q => q.getD 1) := le_max_left _ _
            omega
    · exact h x hx
  | remove idx =>
    intro x hx
    simp only [applyOp, cart_remove] at hx
    split at hx
    · exact h x (List.eraseIdx_subset _ _ hx)
    · exact h x hx
  | clear =>
    intro x hx
    simp [applyOp, cart_clear] at hx

/-- C10: in every cart reachable through the public cart operations
from a fresh session, every line has quantity ≥ 1. -/
theorem reachable_cart_lines_have_positive_qty (ops : List CartOp) (r : CartLine)
    (hr : r ∈ (runOps emptySession ops).cart) : 1 ≤ r.qty := by
  have main : ∀ (l : List CartOp) (sess : Session),
      (∀ x ∈ sess.cart, 1 ≤ x.qty) → ∀ x ∈ (runOps sess l).cart, 1 ≤ x.qty := by
    intro l
    induction l with
    | nil => intro sess h; exact h
    | cons op rest ih =>
      intro sess h
      have := ih (applyOp sess op) (applyOp_qty_pos sess op h)
      simpa [runOps] using this
  exact main ops emptySession (by intro x hx; cases hx) r hr

theorem reachable_cart_lines_have_positive_qty_witness :
    exLine ∈ (runOps emptySession
      [CartOp.add "Pizza" none "Margherita" "" 1000 (some 1)]).cart ∧
    1 ≤ exLine.qty :=
  ⟨by decide,
   reachable_cart_lines_have_positive_qty
     [CartOp.add "Pizza" none "Margherita" "" 1000 (some 1)] exLine (by decide)⟩

/-! Character-level facts about ASCII upper-casing, used to show that
normalized promo codes are fixed points of upper-casing. -/

theorem char_ofNat_toNat {m : Nat} (h : m < 55296) : (Char.ofNat m).toNat = m := by
  unfold Char.ofNat
  rw [dif_pos (Or.inl h)]
  simp [Char.ofNatAux, Char.toNat, UInt32.toNat]

theorem char_toUpper_toNat (c : Char) (h : 97 ≤ c.toNat ∧ c.toNat ≤ 122) :
    c.toUpper.toNat = c.toNat - 32 := by
  simp only [Char.toUpper]
  rw [if_pos h]
  exact char_ofNat_toNat (by omega)

theorem char_toUpper_fix (c : Char) (h : ¬(97 ≤ c.toNat ∧ c.toNat ≤ 122)) :
    c.toUpper = c := by
  simp only [Char.toUpper]
  rw [if_neg h]

theorem char_toUpper_idem (c : Char) : c.toUpper.toUpper = c.toUpper := by
  by_cases h : 97 ≤ c.toNat ∧ c.toNat ≤ 122
  · exact char_toUpper_fix _ (by rw [char_toUpper_toNat c h]; omega)
  · rw [char_toUpper_fix c h]
    exact char_toUpper_fix c h

theorem pyUpper_idem (s : String) : pyUpper (pyUpper s) = pyUpper s := by
  simp only [pyUpper, List.map_map]
  congr 1
  exact List.map_congr_left (fun c _ => char_toUpper_idem c)

/-- The fields `_normalize_promo` guarantees on its output: the code is
a non-empty fixed point of upper-casing, the numeric fields are
non-negative. -/
theorem normalize_fields (item : RawPromo) (p : Promo)
    (h : _normalize_promo item = some p) :
    pyUpper p.code = p.code ∧ p.code ≠ "" ∧ 0 ≤ p.value ∧ 0 ≤ p.min_subtotal ∧
      0 ≤ p.max_uses ∧ 0 ≤ p.used := by
  simp only [_normalize_promo] at h
  split at h
  · cases h
  · rename_i hne
    rw [Option.some_inj] at h
    subst h
    exact ⟨pyUpper_idem _, hne, abs_nonneg _, le_max_left _ _, le_max_left _ _,
           le_max_left _ _⟩

/-- A member of `upsertPromo acc p` is `p` or comes from `acc`. -/
theorem mem_upsertPromo (acc : List Promo) (p q : Promo)
    (hq : q ∈ upsertPromo acc p) : q = p ∨ q ∈ acc := by
  unfold upsertPromo at hq
  split at hq
  · rcases List.mem_map.mp hq with ⟨r, hr, he⟩
    by_cases hc : r.code = p.code
    · rw [if_pos hc] at he
      exact Or.inl he.symm
    · rw [if_neg hc] at he
      exact Or.inr (he ▸ hr)
  · rcases List.mem_append.mp hq with h | h
    · exact Or.inr h
    · exact Or.inl (List.mem_singleton.mp h)

/-- In `upsertPromo acc p`, the only member carrying `p`'s code is `p`
itself. -/
theorem mem_upsertPromo_same_code (acc : List Promo) (p q : Promo)
    (hq : q ∈ upsertPromo acc p) (hc : q.code = p.code) : q = p := by
  unfold upsertPromo at hq
  split at hq
  · rcases List.mem_map.mp hq with ⟨r, hr, he⟩
    by_cases hrc : r.code = p.code
    · rw [if_pos hrc] at he
      exact he.symm
    · rw [if_neg hrc] at he
      exact absurd (he ▸ hc) hrc
  · rename_i hany
    rcases List.mem_append.mp hq with h | h
    · simp only [List.any_eq_true, decide_eq_true_eq] at hany
      exact absurd ⟨q, h, hc⟩ hany
    · exact List.mem_singleton.mp h

/-- The code list after `upsertPromo`: unchanged when the code is
present, extended by one otherwise. -/
theorem upsertPromo_map_code (acc : List Promo) (p : Promo) :
    (upsertPromo acc p).map (fun q => q.code) =
      (if p.code ∈ acc.map (fun q => q.code) then acc.map (fun q => q.code)
       else acc.map (fun q => q.code) ++ [p.code]) := by
  unfold upsertPromo
  by_cases hm : p.code ∈ acc.map (fun q => q.code)
  · rw [if_pos hm]
    have hany : acc.any (fun q => q.code = p.code) = true := by
      simp only [List.any_eq_true, decide_eq_true_eq]
      rcases List.mem_map.mp hm with ⟨r, hr, he⟩
      exact ⟨r, hr, he⟩
    rw [if_pos hany, List.map_map]
    refine List.map_congr_left ?_
    intro r _
    by_cases hc : r.code = p.code
    · simp [hc]
    · simp [hc]
  · rw [if_neg hm]
    have hany : ¬ acc.any (fun q => q.code = p.code) = true := by
      simp only [List.any_eq_true, decide_eq_true_eq]
      rintro ⟨r, hr, he⟩
      exact hm (List.mem_map.mpr ⟨r, hr, he⟩)
    rw [if_neg hany, List.map_append]
    rfl

/-- Folding `upsertPromo` keeps the code list duplicate-free. -/
theorem foldl_upsert_nodup (ps : List Promo) :
    ∀ acc : List Promo, (acc.map (fun q => q.code)).Nodup →
      ((ps.foldl upsertPromo acc).map (fun q => q.code)).Nodup := by
  induction ps with
  | nil => intro acc h; exact h
  | cons p rest ih =>
    intro acc h
    refine ih (upsertPromo acc p) ?_
    rw [upsertPromo_map_code]
    split
    · exact h
    · rename_i hm
      simp [List.nodup_append, h, hm]

/-- A member of the fold comes from the accumulator or from the input. -/
theorem mem_foldl_upsert (ps : List Promo) :
    ∀ acc q, q ∈ ps.foldl upsertPromo acc → q ∈ acc ∨ q ∈ ps := by
  induction ps with
  | nil => intro acc q h; exact Or.inl h
  | cons p rest ih =>
    intro acc q h
    rcases ih (upsertPromo acc p) q h with h1 | h1
    · rcases mem_upsertPromo acc p q h1 with h2 | h2
      · exact Or.inr (h2 ▸ List.mem_cons_self p rest)
      · exact Or.inl h2
    · exact Or.inr (List.mem_cons_of_mem p h1)

/-- Dict semantics of the fold: a member either kept its accumulator
entry (no input row carries its code) or is the last input row with its
code. -/
theorem foldl_upsert_last_wins (ps : List Promo) :
    ∀ acc q, q ∈ ps.foldl upsertPromo acc →
      ((ps.filter (fun r => r.code = q.code)) = [] ∧ q ∈ acc) ∨
      (ps.filter (fun r => r.code = q.code)).getLast? = some q := by
  induction ps with
  | nil => intro acc q h; exact Or.inl ⟨rfl, h⟩
  | cons p rest ih =>
    intro acc q h
    rcases ih (upsertPromo acc p) q h with ⟨hf, hacc⟩ | hlast
    · by_cases hpq : p.code = q.code
      · have hq : q = p := mem_upsertPromo_same_code acc p q hacc hpq.symm
        right
        rw [List.filter_cons_of_pos (by simpa using hpq), hf]
        simp [hq]
      · rcases mem_upsertPromo acc p q hacc with h2 | h2
        · exact absurd (congrArg Promo.code h2).symm hpq
        · left
          rw [List.filter_cons_of_neg (by simpa using hpq)]
          exact ⟨hf, h2⟩
    · right
      by_cases hpq : p.code = q.code
      · rw [List.filter_cons_of_pos (by simpa using hpq)]
        rcases hrest : rest.filter (fun r => r.code = q.code) with _ | ⟨b, l⟩
        · rw [hrest] at hlast
          cases hlast
        · rw [hrest] at hlast
          rw [hrest, List.getLast?_cons_cons]
          exact hlast
      · rw [List.filter_cons_of_neg (by simpa using hpq)]
        exact hlast

/-- Members of `saveGo` are first-occurrence normalizations whose code
avoids `seen`. -/
theorem mem_saveGo (items : List RawPromo) :
    ∀ seen q, q ∈ saveGo seen items →
      ((items.filterMap _normalize_promo).filter
          (fun r => r.code = q.code)).head? = some q ∧ q.code ∉ seen := by
  induction items with
  | nil => intro seen q h; cases h
  | cons it rest ih =>
    intro seen q h
    simp only [saveGo] at h
    rcases hnorm : _normalize_promo it with _ | norm
    · rw [hnorm] at h
      rcases ih seen q h with ⟨h1, h2⟩
      rw [List.filterMap_cons_none hnorm]
      exact ⟨h1, h2⟩
    · rw [hnorm] at h
      dsimp only at h
      rw [List.filterMap_cons_some hnorm]
      by_cases hseen : norm.code ∈ seen
      · rw [if_pos (by simpa using hseen)] at h
        rcases ih seen q h with ⟨h1, h2⟩
        have hne : ¬ norm.code = q.code := fun he => h2 (he ▸ hseen)
        rw [List.filter_cons_of_neg (by simpa using hne)]
        exact ⟨h1, h2⟩
      · rw [if_neg (by simpa using hseen)] at h
        rcases List.mem_cons.mp h with he | hmem
        · subst he
          rw [List.filter_cons_of_pos (by simp)]
          exact ⟨rfl, hseen⟩
        · rcases ih (norm.code :: seen) q hmem with ⟨h1, h2⟩
          have hq1 : ¬ q.code ∈ (norm.code :: seen) := h2
          have hne : ¬ norm.code = q.code := by
            intro he
            exact hq1 (he ▸ List.mem_cons_self _ _)
          rw [List.filter_cons_of_neg (by simpa using hne)]
          exact ⟨h1, fun hs => hq1 (List.mem_cons_of_mem _ hs)⟩

/-- Every `saveGo` member is a normalization of some input row. -/
theorem mem_saveGo_normalized (items : List RawPromo) :
    ∀ seen q, q ∈ saveGo seen items →
      ∃ it ∈ items, _normalize_promo it = some q := by
  induction items with
  | nil => intro seen q h; cases h
  | cons it rest ih =>
    intro seen q h
    simp only [saveGo] at h
    rcases hnorm : _normalize_promo it with _ | norm
    · rw [hnorm] at h
      rcases ih seen q h with ⟨it', hit', he⟩
      exact ⟨it', List.mem_cons_of_mem _ hit', he⟩
    · rw [hnorm] at h
      dsimp only at h
      by_cases hseen : norm.code ∈ seen
      · rw [if_pos (by simpa using hseen)] at h
        rcases ih seen q h with ⟨it', hit', he⟩
        exact ⟨it', List.mem_cons_of_mem _ hit', he⟩
      · rw [if_neg (by simpa using hseen)] at h
        rcases List.mem_cons.mp h with he | hmem
        · exact ⟨it, List.mem_cons_self _ _, he ▸ hnorm⟩
        · rcases ih (norm.code :: seen) q hmem with ⟨it', hit', he⟩
          exact ⟨it', List.mem_cons_of_mem _ hit', he⟩

/-- The code list produced by `saveGo` is duplicate-free and disjoint
from `seen`. -/
theorem saveGo_codes_nodup (items : List RawPromo) :
    ∀ seen, ((saveGo seen items).map (fun q => q.code)).Nodup := by
  intro seen
  induction items generalizing seen with
  | nil => simp [saveGo]
  | cons it rest ih =>
    simp only [saveGo]
    rcases hnorm : _normalize_promo it with _ | norm
    · exact ih seen
    · dsimp only
      by_cases hseen : norm.code ∈ seen
      · rw [if_pos (by simpa using hseen)]
        exact ih seen
      · rw [if_neg (by simpa using hseen)]
        simp only [List.map_cons, List.nodup_cons]
        refine ⟨?_, ih (norm.code :: seen)⟩
        intro hmem
        rcases List.mem_map.mp hmem with ⟨q, hq, he⟩
        have := (mem_saveGo rest _ q hq).2
        exact this (he ▸ List.mem_cons_self _ _)

theorem insertByCode_perm (p : Promo) (l : List Promo) :
    (insertByCode p l).Perm (p :: l) := by
  induction l with
  | nil => exact List.Perm.refl _
  | cons q rest ih =>
    simp only [insertByCode]
    split
    · exact ((ih.cons q).trans (List.Perm.swap p q rest))
    · exact List.Perm.refl _

theorem sortByCode_perm (l : List Promo) : (sortByCode l).Perm l := by
  induction l with
  | nil => exact List.Perm.refl _
  | cons p rest ih =>
    exact (insertByCode_perm p (sortByCode rest)).trans (ih.cons p)

/-- Concrete duplicate-code rows used by the C9 counterexample. -/
def rawDupA : RawPromo :=
  { code := "A", type := "percent", value := 1, min_subtotal := 0,
    expires_at := none, max_uses := 0, used := 0, active := true, comment := "" }

def rawDupB : RawPromo :=
  { code := "A", type := "percent", value := 2, min_subtotal := 0,
    expires_at := none, max_uses := 0, used := 0, active := true, comment := "" }

def promoA1 : Promo :=
  { code := "A", type := .percent, value := 1, min_subtotal := 0,
    expires_at := none, max_uses := 0, used := 0, active := true, comment := "" }

def promoA2 : Promo :=
  { code := "A", type := .percent, value := 2, min_subtotal := 0,
    expires_at := none, max_uses := 0, used := 0, active := true, comment := "" }

/-- C9 counterexample: saving a store with a duplicated code keeps the
FIRST occurrence, not the last as the claim states (the load path does
keep the last). -/
theorem save_promocodes_keeps_first_duplicate :
    save_promocodes [rawDupA, rawDupB] = [promoA1] ∧
    _normalize_promo rawDupB = some promoA2 ∧
    save_promocodes [rawDupA, rawDupB] ≠ [promoA2] ∧
    load_promocodes [rawDupA, rawDupB] = [promoA2] := by
  refine ⟨by decide, by decide, by decide, by decide⟩

/-- C9 (amended): load/save normalization yields unique, upper-cased
codes and clamps the numeric fields to non-negative; duplicate codes
collapse with the last occurrence winning on load and the first
occurrence winning on save. -/
theorem promo_store_normalization (raws : List RawPromo) :
    ((load_promocodes raws).map (fun p => p.code)).Nodup ∧
    ((save_promocodes raws).map (fun p => p.code)).Nodup ∧
    (∀ p ∈ load_promocodes raws,
      (pyUpper p.code = p.code ∧ p.code ≠ "" ∧ 0 ≤ p.value ∧ 0 ≤ p.min_subtotal ∧
        0 ≤ p.max_uses ∧ 0 ≤ p.used) ∧
      lastNormWithCode raws p.code = some p) ∧
    (∀ p ∈ save_promocodes raws,
      (pyUpper p.code = p.code ∧ p.code ≠ "" ∧ 0 ≤ p.value ∧ 0 ≤ p.min_subtotal ∧
        0 ≤ p.max_uses ∧ 0 ≤ p.used) ∧
      firstNormWithCode raws p.code = some p) := by
  have hperm := sortByCode_perm ((raws.filterMap _normalize_promo).foldl upsertPromo [])
  refine ⟨?_, ?_, ?_, ?_⟩
  · exact ((hperm.map (fun p => p.code)).nodup_iff).mpr
      (foldl_upsert_nodup _ [] (by simp))
  · exact saveGo_codes_nodup raws []
  · intro p hp
    have hp' : p ∈ (raws.filterMap _normalize_promo).foldl upsertPromo [] :=
      hperm.mem_iff.mp hp
    constructor
    · rcases mem_foldl_upsert _ [] p hp' with h | h
      · cases h
      · rcases List.mem_filterMap.mp h with ⟨it, _, he⟩
        exact normalize_fields it p he
    · rcases foldl_upsert_last_wins _ [] p hp' with ⟨_, hacc⟩ | hl
      · cases hacc
      · simpa [lastNormWithCode] using hl
  · intro p hp
    constructor
    · rcases mem_saveGo_normalized raws [] p hp with ⟨it, _, he⟩
      exact normalize_fields it p he
    · simpa [firstNormWithCode] using (mem_saveGo raws [] p hp).1

theorem promo_store_normalization_witness :
    promoA2 ∈ load_promocodes [rawDupA, rawDupB] ∧
    ((pyUpper promoA2.code = promoA2.code ∧ promoA2.code ≠ "" ∧ 0 ≤ promoA2.value ∧
       0 ≤ promoA2.min_subtotal ∧ 0 ≤ promoA2.max_uses ∧ 0 ≤ promoA2.used) ∧
      lastNormWithCode [rawDupA, rawDupB] promoA2.code = some promoA2) :=
  ⟨by decide,
   (promo_store_normalization [rawDupA, rawDupB]).2.2.1 promoA2 (by decide)⟩

set_option maxHeartbeats 2000000 in
/-- Success inversion for `order_submit`: the recorded pricing fields
satisfy the checkout algorithm, and the store / session effects are
exactly those performed at the end of the route. -/
theorem order_submit_ok_inv (today : Int) (store : List Promo) (cfg : CartCfg)
    (sess : Session) (form : OrderForm) (res : OrderResult)
    (store' : List Promo) (sess' : Session)
    (h : order_submit today store cfg sess form = .ok (res, store', sess')) :
    res.subtotal = calc_subtotal sess.cart ∧
    res.discount = (get_applied_promo today store sess.promo_code
        (calc_subtotal sess.cart)).1.discount ∧
    res.discounted_subtotal = max 0 (res.subtotal - res.discount) ∧
    res.delivery_method = pyLower (pyStrip (strOr form.delivery_method "delivery")) ∧
    res.delivery = (if res.delivery_method = "delivery"
                    then compute_shipping res.discounted_subtotal cfg else 0) ∧
    res.pickup_discount_value = (if res.delivery_method = "delivery" then 0
        else max 0 (res.discounted_subtotal * (cfg.pickup_discount / 100))) ∧
    res.total = (if res.delivery_method = "delivery"
                 then res.discounted_subtotal + res.delivery
                 else max 0 (res.discounted_subtotal - res.pickup_discount_value)
                      + res.delivery) ∧
    res.promo_code = (match (get_applied_promo today store sess.promo_code
        (calc_subtotal sess.cart)).1.promo with
      | some p => p.code
      | none => "") ∧
    store' = (if res.promo_code ≠ "" ∧ res.discount > 0
              then _increment_promo_usage res.promo_code store else store) ∧
    sess' = { cart := [], promo_code := none } := by
  simp only [order_submit] at h
  repeat' split at h
  all_goals cases h
  all_goals refine ⟨rfl, rfl, rfl, rfl, ?_, ?_, ?_, ?_, ?_, rfl⟩ <;>
    first
      | (simp_all; done)
      | (split <;> first | rfl | tauto)

/-- C1: on a successful delivery-method checkout, the fee is computed
on the discounted subtotal `max 0 (subtotal - discount)`: it is 0 iff
that amount is ≥ `free_from` and positive, else `delivery_price`, and
the total is the discounted subtotal plus the fee. -/
theorem delivery_fee_on_discounted_subtotal (today : Int) (store : List Promo)
    (cfg : CartCfg) (sess : Session) (form : OrderForm) (res : OrderResult)
    (store' : List Promo) (sess' : Session)
    (h : order_submit today store cfg sess form = .ok (res, store', sess'))
    (hdm : res.delivery_method = "delivery") :
    res.subtotal = calc_subtotal sess.cart ∧
    res.discount = (get_applied_promo today store sess.promo_code
        (calc_subtotal sess.cart)).1.discount ∧
    res.discounted_subtotal = max 0 (res.subtotal - res.discount) ∧
    res.delivery = (if res.discounted_subtotal ≥ cfg.free_from ∧
                       res.discounted_subtotal > 0
                    then 0 else cfg.delivery_price) ∧
    res.total = res.discounted_subtotal + res.delivery := by
  obtain ⟨h1, h2, h3, _, h5, _, h7, _, _, _⟩ :=
    order_submit_ok_inv today store cfg sess form res store' sess' h
  refine ⟨h1, h2, h3, ?_, ?_⟩
  · rw [h5, if_pos hdm]
    unfold compute_shipping
    by_cases hc : res.discounted_subtotal > 0 ∧ res.discounted_subtotal ≥ cfg.free_from
    · rw [if_pos hc, if_pos ⟨hc.2, hc.1⟩]
    · rw [if_neg hc, if_neg (fun hc2 => hc ⟨hc2.2, hc2.1⟩)]
  · rw [h7, if_pos hdm]

/-- The order row of the witness checkout: one 1000-unit line, no
promo, delivery with config 200/1500 (spec scenario A). -/
def exResA : OrderResult :=
  { subtotal := 1000, discount := 0, discounted_subtotal := 1000, delivery := 200,
    total := 1200, promo_code := "", promo_status := "", payment_method := "card",
    change_from := none, delivery_method := "delivery", pickup_discount_pct := 0,
    pickup_discount_value := 0 }

/-- Evaluation of the witness checkout (spec scenario A). -/
theorem exResA_eval :
    order_submit 0 [] exCfg { cart := [exLine], promo_code := none } exForm =
      .ok (exResA, [], { cart := [], promo_code := none }) := by
  simp +decide [order_submit, exCfg, exLine, exForm, exResA, calc_subtotal,
    get_applied_promo, compute_shipping, strOr, pyLower, pyStrip, pyUpper] <;>
    norm_num

theorem delivery_fee_on_discounted_subtotal_witness :
    order_submit 0 [] exCfg { cart := [exLine], promo_code := none } exForm =
      .ok (exResA, [], { cart := [], promo_code := none }) ∧
    exResA.delivery_method = "delivery" ∧
    (exResA.subtotal = calc_subtotal ({ cart := [exLine], promo_code := none } : Session).cart ∧
     exResA.discount = (get_applied_promo 0 [] none
        (calc_subtotal ({ cart := [exLine], promo_code := none } : Session).cart)).1.discount ∧
     exResA.discounted_subtotal = max 0 (exResA.subtotal - exResA.discount) ∧
     exResA.delivery = (if exResA.discounted_subtotal ≥ exCfg.free_from ∧
                           exResA.discounted_subtotal > 0
                        then 0 else exCfg.delivery_price) ∧
     exResA.total = exResA.discounted_subtotal + exResA.delivery) :=
  ⟨exResA_eval, by decide,
   delivery_fee_on_discounted_subtotal 0 [] exCfg
     { cart := [exLine], promo_code := none } exForm exResA []
     { cart := [], promo_code := none } exResA_eval (by decide)⟩

/-- `bumpFirst` leaves the code list unchanged. -/
theorem bumpFirst_map_code (code : String) (l : List Promo) :
    ((bumpFirst code l).1).map (fun q => q.code) = l.map (fun q => q.code) := by
  induction l with
  | nil => rfl
  | cons p rest ih =>
    simp only [bumpFirst]
    split
    · rfl
    · simpa using ih

/-- `bumpFirst` reports a change when some record carries the code. -/
theorem bumpFirst_changed (code : String) (l : List Promo) (p : Promo)
    (hp : p ∈ l) (hc : p.code = code) : (bumpFirst code l).2 = true := by
  induction l with
  | nil => cases hp
  | cons q rest ih =>
    simp only [bumpFirst]
    split
    · rfl
    · rename_i hq
      rcases List.mem_cons.mp hp with he | hm
      · exact absurd (he ▸ hc) hq
      · simpa using ih hm

/-- After `bumpFirst`, the looked-up `used` of the bumped code is the
old value clamped at 0 plus one. -/
theorem findUsed_bumpFirst_self (code : String) (l : List Promo) :
    findUsed (bumpFirst code l).1 code =
      (findUsed l code).map (fun u => max 0 u + 1) := by
  induction l with
  | nil => rfl
  | cons p rest ih =>
    simp only [bumpFirst]
    split
    · rename_i hp
      simp only [findUsed]
      rw [List.find?_cons_of_pos _ (by simpa using hp),
          List.find?_cons_of_pos _ (by simpa using hp)]
      rfl
    · rename_i hp
      simp only [findUsed] at ih ⊢
      rw [List.find?_cons_of_neg _ (by simpa using hp),
          List.find?_cons_of_neg _ (by simpa using hp)]
      simpa using ih

/-- `bumpFirst` does not touch records with other codes. -/
theorem findUsed_bumpFirst_other (code c : String) (hne : c ≠ code)
    (l : List Promo) :
    findUsed (bumpFirst code l).1 c = findUsed l c := by
  induction l with
  | nil => rfl
  | cons p rest ih =>
    simp only [bumpFirst]
    split
    · rename_i hp
      have hpc : ¬ p.code = c := fun h => hne ((h ▸ hp : (c = code)))
      simp only [findUsed]
      rw [List.find?_cons_of_neg _ (by simpa using hpc),
          List.find?_cons_of_neg _ (by simpa using hpc)]
    · rename_i hp
      by_cases hpc : p.code = c
      · simp only [findUsed]
        rw [List.find?_cons_of_pos _ (by simpa using hpc),
            List.find?_cons_of_pos _ (by simpa using hpc)]
      · simp only [findUsed] at ih ⊢
        rw [List.find?_cons_of_neg _ (by simpa using hpc),
            List.find?_cons_of_neg _ (by simpa using hpc)]
        simpa using ih

/-- `bumpFirst` preserves well-formedness of the store records. -/
theorem bumpFirst_wf (code : String) (l : List Promo)
    (hwf : ∀ p ∈ l, PromoWF p) :
    ∀ q ∈ (bumpFirst code l).1, PromoWF q := by
  induction l with
  | nil => intro q hq; cases hq
  | cons p rest ih =>
    intro q hq
    simp only [bumpFirst] at hq
    split at hq
    · dsimp only at hq
      rcases List.mem_cons.mp hq with he | hm
      · subst he
        obtain ⟨w1, w2, w3, w4, w5, w6, w7⟩ := hwf p (List.mem_cons_self p rest)
        refine ⟨w1, w2, w3, w4, w5, ?_, w7⟩
        have h0 : (0 : Int) ≤ max 0 p.used := le_max_left _ _
        show (0 : Int) ≤ max 0 p.used + 1
        omega
      · exact hwf q (List.mem_cons_of_mem p hm)
    · dsimp only at hq
      rcases List.mem_cons.mp hq with he | hm
      · subst he
        exact hwf q (List.mem_cons_self q rest)
      · exact ih (fun r hr => hwf r (List.mem_cons_of_mem p hr)) q hm

/-- A well-formed promo is a fixed point of normalization. -/
theorem normalize_toRaw (p : Promo) (hwf : PromoWF p) :
    _normalize_promo p.toRaw = some p := by
  obtain ⟨h1, h2, h3, h4, h5, h6, h7⟩ := hwf
  have htype :
      (if pyLower (match p.type with | .percent => "percent" | .fixed => "fixed") = "fixed" ∨
          pyLower (match p.type with | .percent => "percent" | .fixed => "fixed") = "amount"
       then PType.fixed else PType.percent) = p.type := by
    cases p.type <;> simp +decide [pyLower]
  simp only [_normalize_promo, Promo.toRaw]
  rw [h1, if_neg h2, htype, abs_of_nonneg h3, max_eq_right h4,
      max_eq_right h5, max_eq_right h6]

/-- `saveGo` is the identity on a well-formed, duplicate-free store
(re-injected through `toRaw`) whose codes avoid `seen`. -/
theorem saveGo_map_toRaw (l : List Promo) :
    ∀ seen, (∀ p ∈ l, PromoWF p) → ((l.map (fun q => q.code)).Nodup) →
      (∀ p ∈ l, p.code ∉ seen) →
      saveGo seen (l.map Promo.toRaw) = l := by
  induction l with
  | nil => intro seen _ _ _; rfl
  | cons p rest ih =>
    intro seen hwf hnd hdisj
    simp only [List.map_cons, saveGo]
    rw [normalize_toRaw p (hwf p (List.mem_cons_self p rest))]
    dsimp only
    rw [if_neg (hdisj p (List.mem_cons_self p rest))]
    simp only [List.map_cons, List.nodup_cons] at hnd
    congr 1
    refine ih (p.code :: seen) (fun r hr => hwf r (List.mem_cons_of_mem p hr))
      hnd.2 ?_
    intro r hr
    intro hmem
    rcases List.mem_cons.mp hmem with he | hs
    · exact hnd.1 (he ▸ List.mem_map_of_mem (fun q => q.code) hr)
    · exact hdisj r (List.mem_cons_of_mem p hr) hs

/-- On a well-formed store containing the code, the usage increment is
exactly `bumpFirst`. -/
theorem increment_promo_usage_eq (code : String) (store : List Promo)
    (hwf : ∀ p ∈ store, PromoWF p)
    (hnd : (store.map (fun q => q.code)).Nodup)
    (p : Promo) (hp : p ∈ store) (hpc : p.code = code) (hne : code ≠ "") :
    _increment_promo_usage code store = (bumpFirst code store).1 := by
  simp only [_increment_promo_usage]
  rw [if_neg hne, bumpFirst_changed code store p hp hpc, if_pos rfl]
  refine saveGo_map_toRaw (bumpFirst code store).1 [] (bumpFirst_wf code store hwf)
    ?_ (fun r _ => List.not_mem_nil r.code)
  rw [bumpFirst_map_code]
  exact hnd

/-- A positive applied discount implies the stored code resolved to a
promo record of the store. -/
theorem get_applied_promo_cases (today : Int) (store : List Promo)
    (sess : Option String) (subtotal : ℚ) :
    (get_applied_promo today store sess subtotal).1.discount = 0 ∨
    ∃ p ∈ store, (get_applied_promo today store sess subtotal).1.promo = some p := by
  by_cases hc : pyUpper (pyStrip (sess.getD "")) = ""
  · left
    simp [get_applied_promo, hc]
  · rcases hfind : store.find? (fun p => p.code = pyUpper (pyStrip (sess.getD ""))) with
      _ | promo
    · left
      simp [get_applied_promo, hc, hfind]
    · right
      refine ⟨promo, List.mem_of_find?_eq_some hfind, ?_⟩
      simp [get_applied_promo, hc, hfind]

/-- C5: a successful order submission increments the `used` counter of
the applied promo code by exactly 1 in the persisted store when the
applied discount was positive (leaving every other code untouched), and
leaves the store unchanged otherwise (no promo, pending promo, or zero
discount). -/
theorem order_submit_promo_usage (today : Int) (store : List Promo) (cfg : CartCfg)
    (sess : Session) (form : OrderForm) (res : OrderResult)
    (store' : List Promo) (sess' : Session)
    (hwf : ∀ p ∈ store, PromoWF p)
    (hnd : (store.map (fun q => q.code)).Nodup)
    (h : order_submit today store cfg sess form = .ok (res, store', sess')) :
    (res.discount > 0 →
      res.promo_code ≠ "" ∧
      findUsed store' res.promo_code =
        (findUsed store res.promo_code).map (fun u => u + 1) ∧
      ∀ c, c ≠ res.promo_code → findUsed store' c = findUsed store c) ∧
    (¬ res.discount > 0 → store' = store) := by
  obtain ⟨_, h2, _, _, _, _, _, h8, h9, _⟩ :=
    order_submit_ok_inv today store cfg sess form res store' sess' h
  constructor
  · intro hd
    have hd' : (get_applied_promo today store sess.promo_code
        (calc_subtotal sess.cart)).1.discount > 0 := h2 ▸ hd
    rcases get_applied_promo_cases today store sess.promo_code
        (calc_subtotal sess.cart) with h0 | ⟨p, hpmem, hpromo⟩
    · rw [h0] at hd'
      exact absurd hd' (lt_irrefl 0)
    · have hcode : res.promo_code = p.code := by
        simp only [h8, hpromo]
      have hPwf := hwf p hpmem
      have hne : res.promo_code ≠ "" := by
        rw [hcode]
        exact hPwf.2.1
      refine ⟨hne, ?_, ?_⟩
      · rw [h9, if_pos ⟨hne, hd⟩, hcode,
            increment_promo_usage_eq p.code store hwf hnd p hpmem rfl hPwf.2.1,
            findUsed_bumpFirst_self]
        rcases hfind : store.find? (fun q => q.code = p.code) with _ | q
        · simp [findUsed, hfind]
        · have hq : q ∈ store := List.mem_of_find?_eq_some hfind
          have h0 : (0 : Int) ≤ q.used := (hwf q hq).2.2.2.2.2.1
          simp [findUsed, hfind, max_eq_right h0]
      · intro c hc
        rw [h9, if_pos ⟨hne, hd⟩, hcode,
            increment_promo_usage_eq p.code store hwf hnd p hpmem rfl hPwf.2.1]
        refine findUsed_bumpFirst_other p.code c ?_ store
        rw [hcode] at hc
        exact hc
  · intro hd
    rw [h9, if_neg (fun hcond => hd hcond.2)]

/-- The promo store after the witness checkout: `used` bumped to 1. -/
def exPromoUsed : Promo := { exPromo with used := 1 }

/-- The order row of the witness checkout with promo SAVE10 applied. -/
def exResB : OrderResult :=
  { subtotal := 1000, discount := 100, discounted_subtotal := 900, delivery := 200,
    total := 1100, promo_code := "SAVE10", promo_status := "ok",
    payment_method := "card", change_from := none, delivery_method := "delivery",
    pickup_discount_pct := 0, pickup_discount_value := 0 }

/-- Evaluation of the witness checkout with promo SAVE10 applied. -/
theorem exResB_eval :
    order_submit 0 [exPromo] exCfg { cart := [exLine], promo_code := some "SAVE10" }
      exForm = .ok (exResB, [exPromoUsed], { cart := [], promo_code := none }) := by
  simp +decide [order_submit, exCfg, exLine, exForm, exResB, calc_subtotal,
    get_applied_promo, compute_shipping, strOr, pyLower, pyStrip, pyUpper,
    _promo_status, _calc_promo_discount, expiryPassed, _increment_promo_usage,
    bumpFirst, save_promocodes, saveGo, _normalize_promo, Promo.toRaw, exPromo,
    exPromoUsed, set_promo_code] <;> norm_num

theorem order_submit_promo_usage_witness :
    (∀ p ∈ [exPromo], PromoWF p) ∧
    (([exPromo].map (fun q => q.code)).Nodup) ∧
    ((exResB.discount > 0 →
        exResB.promo_code ≠ "" ∧
        findUsed [exPromoUsed] exResB.promo_code =
          (findUsed [exPromo] exResB.promo_code).map (fun u => u + 1) ∧
        ∀ c, c ≠ exResB.promo_code → findUsed [exPromoUsed] c = findUsed [exPromo] c) ∧
      (¬ exResB.discount > 0 → [exPromoUsed] = [exPromo])) :=
  ⟨by decide, by decide,
   order_submit_promo_usage 0 [exPromo] exCfg
     { cart := [exLine], promo_code := some "SAVE10" } exForm exResB [exPromoUsed]
     { cart := [], promo_code := none } (by decide) (by decide) exResB_eval⟩

end Pubsite
